import Mathlib

/-!
Verification development for the Eigen C wrapper
(`src/dependencies/wrappers/eigen.cpp`).

Modelling conventions:
* `double` values are modelled as exact rationals (`ℚ`); floating-point
  rounding is idealized away, tolerance constants (`1e-10`, `pow(10,-2)`) are
  kept as the exact rationals the source compares against.
* A pointer argument is modelled as an `Option` of the buffer it points to;
  `none` models a null pointer.  The output buffer `v_out` appears both as an
  input (its prior contents) and in the result (its contents after the call),
  so "no write happened" is expressed as the buffer coming back unchanged.
* The flat 16-element quadric buffer is interpreted column-major
  (`quadric r c = Q[c*4+r]`), exactly as `Eigen::Map<const Matrix4d>` does.
* External Eigen decompositions that the repository only calls are modelled
  as follows: `Eigen::BDCSVD::solve` (a minimum-norm least-squares solve) is
  an explicit function parameter, so every theorem about
  `eigen_optimal_vertex_revised` assumes only the documented contract of that
  solver at the system actually passed to it; `Eigen::FullPivLU` on exact
  arithmetic detects invertibility exactly (`det ≠ 0`) and its solve on an
  invertible system returns the unique solution, which we realize executably
  by Cramer's rule; the complete-orthogonal-decomposition pseudo-inverse is a
  function parameter as well.
-/

abbrev Vec3 := Fin 3 → ℚ

abbrev Vec4 := Fin 4 → ℚ

abbrev Mat3 := Fin 3 → Fin 3 → ℚ

abbrev Mat4 := Fin 4 → Fin 4 → ℚ

/-- Column-major interpretation of a flat 16-element buffer, as in
`Eigen::Map<const Eigen::Matrix<double, 4, 4>> quadric(Q)`. -/
def colMajor (Q : Fin 16 → ℚ) : Mat4 :=
  fun r c => Q ⟨(c : ℕ) * 4 + (r : ℕ), by omega⟩

/-- Explicit 4×4 determinant (cofactor expansion along row 0); the executable
stand-in for the determinant Eigen computes. -/
def det4 (M : Mat4) : ℚ :=
    M 0 0 * (M 1 1*(M 2 2*M 3 3 - M 2 3*M 3 2) - M 1 2*(M 2 1*M 3 3 - M 2 3*M 3 1) + M 1 3*(M 2 1*M 3 2 - M 2 2*M 3 1))
  - M 0 1 * (M 1 0*(M 2 2*M 3 3 - M 2 3*M 3 2) - M 1 2*(M 2 0*M 3 3 - M 2 3*M 3 0) + M 1 3*(M 2 0*M 3 2 - M 2 2*M 3 0))
  + M 0 2 * (M 1 0*(M 2 1*M 3 3 - M 2 3*M 3 1) - M 1 1*(M 2 0*M 3 3 - M 2 3*M 3 0) + M 1 3*(M 2 0*M 3 1 - M 2 1*M 3 0))
  - M 0 3 * (M 1 0*(M 2 1*M 3 2 - M 2 2*M 3 1) - M 1 1*(M 2 0*M 3 2 - M 2 2*M 3 0) + M 1 2*(M 2 0*M 3 1 - M 2 1*M 3 0))

/-- Replace column `j` of `M` by `b`. -/
def updCol (M : Mat4) (j : Fin 4) (b : Vec4) : Mat4 :=
  fun r c => if c = j then b r else M r c

/-- Cramer's-rule solve; on an invertible matrix this is the unique solution
of `M x = b`, the exact-arithmetic model of `Eigen::FullPivLU::solve`. -/
def solve4 (M : Mat4) (b : Vec4) : Vec4 :=
  fun i => det4 (updCol M i b) / det4 M

/-- 4×4 matrix · vector. -/
def mulVec4 (M : Mat4) (x : Vec4) : Vec4 :=
  fun i => M i 0 * x 0 + M i 1 * x 1 + M i 2 * x 2 + M i 3 * x 3

/-- 3×3 matrix · vector. -/
def mulVec3 (A : Mat3) (x : Vec3) : Vec3 :=
  fun i => A i 0 * x 0 + A i 1 * x 1 + A i 2 * x 2

/-- Squared Euclidean norm of a 3-vector. -/
def sqNorm3 (x : Vec3) : ℚ :=
  x 0 ^ 2 + x 1 ^ 2 + x 2 ^ 2

/-- Squared residual of the linear system `A x = b` at `x`. -/
def resid3 (A : Mat3) (b x : Vec3) : ℚ :=
  sqNorm3 (fun i => mulVec3 A x i - b i)

/-- `x` minimizes the residual of `A x = b` (a least-squares solution). -/
def IsLeastSquares (A : Mat3) (b x : Vec3) : Prop :=
  ∀ y : Vec3, resid3 A b x ≤ resid3 A b y

/-- `x` is the minimum-norm least-squares solution of `A x = b`: the contract
of `Eigen::BDCSVD::solve`. -/
def IsMinNormLS (A : Mat3) (b x : Vec3) : Prop :=
  IsLeastSquares A b x ∧ ∀ y : Vec3, IsLeastSquares A b y → sqNorm3 x ≤ sqNorm3 y

/-- Exact inverse of a 4×4 matrix, column by column via Cramer's rule; the
model of `Eigen::Matrix4d::inverse()`. -/
def inverse4 (M : Mat4) : Mat4 :=
  fun i j => solve4 M (fun k => if k = j then 1 else 0) i

/-! ### `eigen_optimal_vertex_revised` (eigen.cpp lines 114–151) -/

/-- `A = quadric.block<3,3>(0,0)`: upper-left 3×3 block of the column-major
quadric. -/
def Ablock (Q : Fin 16 → ℚ) : Mat3 :=
  fun i j => colMajor Q ⟨(i : ℕ), by omega⟩ ⟨(j : ℕ), by omega⟩

/-- `b = quadric.block<3,1>(0,3)`: rows 0–2 of column 3 of the quadric. -/
def bvec (Q : Fin 16 → ℚ) : Vec3 :=
  fun i => colMajor Q ⟨(i : ℕ), by omega⟩ 3

/-- `regularized_A`: `A` with `lambda` added to each of its three diagonal
entries (the `for (int i = 0; i < 3; i++) regularized_A(i, i) += lambda`
loop). -/
def regularizedA (Q : Fin 16 → ℚ) (lam : ℚ) : Mat3 :=
  fun i j => Ablock Q i j + if i = j then lam else 0

/-- `rhs = -b + lambda * ref` in `eigen_optimal_vertex_revised`. -/
def rhsRevised (Q : Fin 16 → ℚ) (v0 : Vec3) (lam : ℚ) : Vec3 :=
  fun i => -(bvec Q i) + lam * v0 i

/-- Shallow embedding of `eigen_optimal_vertex_revised`.  `svdSolve` stands
for `Eigen::BDCSVD<Matrix3d>::solve`; the rest is translated line by line
from the source.  The second component of the result is the final contents
of the `v_out` buffer. -/
def eigen_optimal_vertex_revised (svdSolve : Mat3 → Vec3 → Vec3)
    (Q : Option (Fin 16 → ℚ)) (v0 : Option Vec3) (lambda : ℚ)
    (v_out : Option Vec4) : Bool × Option Vec4 :=
  match Q, v0, v_out with
  | some q, some ref, some _ =>
      (true, some ![svdSolve (regularizedA q lambda) (rhsRevised q ref lambda) 0,
                    svdSolve (regularizedA q lambda) (rhsRevised q ref lambda) 1,
                    svdSolve (regularizedA q lambda) (rhsRevised q ref lambda) 2,
                    1])
  | _, _, _ => (false, v_out)

/-! ### `eigen_optimal_vertex` (eigen.cpp lines 153–221) -/

/-- `modQ` just after the regularization loop: a copy of the quadric with
`lambda` added to the diagonal entries (0,0), (1,1), (2,2) only. -/
def regQ (Q : Fin 16 → ℚ) (lam : ℚ) : Mat4 :=
  fun i j => colMajor Q i j + if i = j ∧ (i : ℕ) < 3 then lam else 0

/-- `modQ` after `modQ.row(3) = Eigen::Vector4d(0, 0, 0, 1)`. -/
def modQmat (Q : Fin 16 → ℚ) (lam : ℚ) : Mat4 :=
  fun i j => if (i : ℕ) = 3 then (if (j : ℕ) = 3 then 1 else 0) else regQ Q lam i j

/-- `rhs << lambda*v0[0], lambda*v0[1], lambda*v0[2], 1.0` (the later
`rhs(3) = 1.0` re-assignment stores the same value). -/
def rhsOV (v0 : Vec3) (lam : ℚ) : Vec4 :=
  ![lam * v0 0, lam * v0 1, lam * v0 2, 1]

/-- The `1e-10` tolerance guarding the homogeneous normalization. -/
def wTol : ℚ := 1 / 10 ^ 10

/-- Shallow embedding of `eigen_optimal_vertex`.  `FullPivLU::isInvertible`
on exact arithmetic is `det4 ≠ 0`, and its solve on an invertible system is
the unique solution `solve4`. -/
def eigen_optimal_vertex (Q : Option (Fin 16 → ℚ)) (v0 : Option Vec3)
    (lambda : ℚ) (v_out : Option Vec4) : Bool × Option Vec4 :=
  match Q, v0, v_out with
  | some q, some ref, some _ =>
      if det4 (modQmat q lambda) = 0 then
        (false, some ![ref 0, ref 1, ref 2, 1])
      else if wTol < |solve4 (modQmat q lambda) (rhsOV ref lambda) 3| then
        (true, some (fun i => solve4 (modQmat q lambda) (rhsOV ref lambda) i /
                              solve4 (modQmat q lambda) (rhsOV ref lambda) 3))
      else
        (false, some ![ref 0, ref 1, ref 2, 1])
  | _, _, _ => (false, v_out)

/-! ### `eigen_mat4d_robust_inverse` (eigen.cpp lines 85–112) -/

/-- The `pow(10, -2)` determinant-magnitude threshold. -/
def detThreshold : ℚ := 1 / 100

/-- Shallow embedding of `eigen_mat4d_robust_inverse`.  `pinv` stands for
`completeOrthogonalDecomposition().pseudoInverse()`; the selected branch is
written to the output buffer, which the result models. -/
def eigen_mat4d_robust_inverse (pinv : Mat4 → Mat4) (inM : Mat4) : Mat4 :=
  if detThreshold < |det4 inM| then inverse4 inM else pinv inM

/-! ### Spec-side definitions (worded from the claims, for comparison) -/

/-- Claim wording: "A is the upper-left 3x3 block of Q" under the flat
column-major layout, so entry `(i,j)` is flat element `j*4+i`. -/
def specA (Q : Fin 16 → ℚ) : Mat3 :=
  fun i j => Q ⟨(j : ℕ) * 4 + (i : ℕ), by omega⟩

/-- Claim wording: "b is the first 3 entries of Q's column 3 (flat elements
12..14)". -/
def specB (Q : Fin 16 → ℚ) : Vec3 :=
  fun i => Q ⟨12 + (i : ℕ), by omega⟩

/-- Claim wording: the system matrix "A + lambda*I". -/
def specRegA (Q : Fin 16 → ℚ) (lam : ℚ) : Mat3 :=
  fun i j => specA Q i j + if i = j then lam else 0

/-- Claim wording: the right-hand side "-b + lambda*v0". -/
def specRhsRev (Q : Fin 16 → ℚ) (v0 : Vec3) (lam : ℚ) : Vec3 :=
  fun i => -(specB Q i) + lam * v0 i

/-- Claim wording (C2): "M formed by copying the 4x4 matrix Q, adding lambda
to exactly the diagonal entries (0,0), (1,1), (2,2) (not (3,3)), then
replacing row 3 of M with [0,0,0,1]". -/
def specModM (Q : Fin 16 → ℚ) (lam : ℚ) : Mat4 :=
  fun i j =>
    if i = 3 then ![(0 : ℚ), 0, 0, 1] j
    else colMajor Q i j +
      (if (i = 0 ∧ j = 0) ∨ (i = 1 ∧ j = 1) ∨ (i = 2 ∧ j = 2) then lam else 0)

/-- Claim wording (C2): "rhs = [lambda*v0[0], lambda*v0[1], lambda*v0[2], 1]". -/
def specRhs4 (v0 : Vec3) (lam : ℚ) : Vec4 :=
  ![lam * v0 0, lam * v0 1, lam * v0 2, 1]

/-! ### Bridge lemmas: the explicit formulas against Mathlib's matrix theory -/

lemma det4_eq_det (M : Mat4) : det4 M = (Matrix.of M).det := by
  have e1 : (Fin.succ 2 : Fin 4) = 3 := rfl
  have e2 : (Fin.castSucc 2 : Fin 4) = 2 := rfl
  have e3 : Fin.succAbove (2 : Fin 4) (2 : Fin 3) = 3 := rfl
  have e4 : Fin.succAbove (1 : Fin 4) (2 : Fin 3) = 3 := rfl
  have e5 : Fin.succAbove (3 : Fin 4) (2 : Fin 3) = 2 := rfl
  have h : (Matrix.of M).det = det4 M := by
    simp [Matrix.det_succ_row_zero, Fin.sum_univ_succ, Matrix.det_fin_three, det4,
      e1, e2, e3, e4, e5]
    ring
  exact h.symm

lemma updCol_eq (M : Mat4) (j : Fin 4) (b : Vec4) :
    Matrix.of (updCol M j b) = (Matrix.of M).updateColumn j b := by
  ext r c
  simp [updCol, Matrix.updateColumn_apply]

lemma mulVec4_eq (M : Mat4) (x : Vec4) : mulVec4 M x = (Matrix.of M).mulVec x := by
  funext i
  simp [mulVec4, Matrix.mulVec, Matrix.dotProduct, Fin.sum_univ_four]

/-- Cramer's rule: on an invertible matrix, `solve4` really solves the
system, so it coincides with what `FullPivLU::solve` returns there. -/
lemma cramer_solve4 (M : Mat4) (b : Vec4) (h : det4 M ≠ 0) :
    mulVec4 M (solve4 M b) = b := by
  have hs : solve4 M b = (det4 M)⁻¹ • (Matrix.cramer (Matrix.of M) b) := by
    funext i
    simp [solve4, Matrix.cramer_apply, ← updCol_eq, det4_eq_det, div_eq_inv_mul]
  rw [mulVec4_eq, hs, Matrix.mulVec_smul, Matrix.mulVec_cramer, ← det4_eq_det]
  funext i
  simp [h]

/-- Each column of `inverse4 M` solves `M x = e_j`, so `inverse4` is the
genuine matrix inverse whenever the determinant is nonzero. -/
lemma inverse4_col (M : Mat4) (j : Fin 4) (h : det4 M ≠ 0) :
    mulVec4 M (fun i => inverse4 M i j) = (fun k => if k = j then 1 else 0) :=
  cramer_solve4 M _ h

/-! ### Concrete inputs used by the witnesses -/

/-- The all-zero flat quadric buffer. -/
def qZero : Fin 16 → ℚ := fun _ => 0

/-- A concrete reference vertex. -/
def v567 : Vec3 := ![5, 6, 7]

/-- A second concrete reference vertex. -/
def v890 : Vec3 := ![8, 9, 10]

/-- A concrete prior content of the output buffer. -/
def zero4 : Vec4 := fun _ => 0

/-- A concrete minimum-norm least-squares solver for the all-zero system:
it returns the zero vector. -/
def zeroSolver : Mat3 → Vec3 → Vec3 := fun _ _ => fun _ => 0

lemma rhsRevised_qZero (r : Vec3) : rhsRevised qZero r 0 = fun _ => 0 := by
  funext i
  simp [rhsRevised, bvec, colMajor, qZero]

/-- The zero vector is the minimum-norm least-squares solution of the system
the code builds from the all-zero quadric with `lambda = 0`. -/
lemma zero_system_minNorm (r : Vec3) :
    IsMinNormLS (regularizedA qZero 0) (rhsRevised qZero r 0)
      (zeroSolver (regularizedA qZero 0) (rhsRevised qZero r 0)) := by
  constructor
  · intro y
    have hx : resid3 (regularizedA qZero 0) (rhsRevised qZero r 0)
        (zeroSolver (regularizedA qZero 0) (rhsRevised qZero r 0)) = 0 := by
      simp [resid3, sqNorm3, mulVec3, zeroSolver, rhsRevised_qZero]
    rw [hx]
    unfold resid3 sqNorm3
    positivity
  · intro y _
    have hx : sqNorm3 (zeroSolver (regularizedA qZero 0) (rhsRevised qZero r 0)) = 0 := by
      simp [sqNorm3, zeroSolver]
    rw [hx]
    unfold sqNorm3
    positivity

/-! ### The claims -/

/-- C1: on non-null inputs, `eigen_optimal_vertex_revised` writes the
minimum-norm least-squares solution of `(A + lambda*I) v = -b + lambda*v0`
(with `A` the upper-left 3×3 block of the column-major `Q` and `b` flat
elements 12..14) into `v_out[0..2]`, sets `v_out[3] = 1`, and returns true;
assuming only that the SVD solver fulfils its least-squares contract on the
system the code hands it. -/
theorem C1_revised_minnorm_least_squares
    (svdSolve : Mat3 → Vec3 → Vec3) (q : Fin 16 → ℚ) (r : Vec3) (lam : ℚ) (buf : Vec4)
    (hsolver : IsMinNormLS (regularizedA q lam) (rhsRevised q r lam)
      (svdSolve (regularizedA q lam) (rhsRevised q r lam))) :
    eigen_optimal_vertex_revised svdSolve (some q) (some r) lam (some buf)
      = (true, some ![svdSolve (regularizedA q lam) (rhsRevised q r lam) 0,
                      svdSolve (regularizedA q lam) (rhsRevised q r lam) 1,
                      svdSolve (regularizedA q lam) (rhsRevised q r lam) 2, 1])
    ∧ IsMinNormLS (specRegA q lam) (specRhsRev q r lam)
        (svdSolve (regularizedA q lam) (rhsRevised q r lam)) := by
  have hA : regularizedA q lam = specRegA q lam := by
    funext i j
    simp [regularizedA, specRegA, specA, Ablock, colMajor]
  have hb : rhsRevised q r lam = specRhsRev q r lam := by
    funext i
    simp [rhsRevised, specRhsRev, specB, bvec, colMajor]
    exact congrArg q (Fin.ext rfl)
  refine ⟨rfl, ?_⟩
  simpa only [hA, hb] using hsolver

/-- Witness for C1 at the all-zero quadric with `lambda = 0` and the zero
solver. -/
theorem C1_witness :
    eigen_optimal_vertex_revised zeroSolver (some qZero) (some v567) 0 (some zero4)
      = (true, some ![0, 0, 0, 1])
    ∧ IsMinNormLS (specRegA qZero 0) (specRhsRev qZero v567 0)
        (zeroSolver (regularizedA qZero 0) (rhsRevised qZero v567 0)) := by
  have h := C1_revised_minnorm_least_squares zeroSolver qZero v567 0 zero4
    (zero_system_minNorm v567)
  refine ⟨h.1.trans ?_, h.2⟩
  simp [zeroSolver]

/-- C5: each of the two exported functions returns false and leaves the
output buffer unchanged when any of the three pointers is null. -/
theorem C5_null_pointers (svdSolve : Mat3 → Vec3 → Vec3)
    (Q : Option (Fin 16 → ℚ)) (v0 : Option Vec3) (lam : ℚ) (buf : Option Vec4)
    (h : Q = none ∨ v0 = none ∨ buf = none) :
    eigen_optimal_vertex Q v0 lam buf = (false, buf)
    ∧ eigen_optimal_vertex_revised svdSolve Q v0 lam buf = (false, buf) := by
  rcases Q with _ | q <;> rcases v0 with _ | r <;> rcases buf with _ | b <;>
    first
      | exact ⟨rfl, rfl⟩
      | simp at h

/-- Witness for C5 with a null quadric pointer. -/
theorem C5_witness :
    eigen_optimal_vertex none (some v567) 0 (some zero4) = (false, some zero4)
    ∧ eigen_optimal_vertex_revised zeroSolver none (some v567) 0 (some zero4)
        = (false, some zero4) :=
  C5_null_pointers zeroSolver none (some v567) 0 (some zero4) (Or.inl rfl)

/-- C7: with `lambda = 0` the revised variant solves the unregularized
least-squares problem `A v = -b`, and its output does not depend on the
contents of `v0` (nor on the prior contents of the output buffer). -/
theorem C7_zero_lambda (svdSolve : Mat3 → Vec3 → Vec3) (q : Fin 16 → ℚ)
    (r r' : Vec3) (buf buf' : Vec4)
    (hsolver : IsMinNormLS (regularizedA q 0) (rhsRevised q r 0)
      (svdSolve (regularizedA q 0) (rhsRevised q r 0))) :
    IsMinNormLS (specA q) (fun i => -(specB q i))
      (svdSolve (regularizedA q 0) (rhsRevised q r 0))
    ∧ eigen_optimal_vertex_revised svdSolve (some q) (some r) 0 (some buf)
        = eigen_optimal_vertex_revised svdSolve (some q) (some r') 0 (some buf') := by
  have hA : regularizedA q 0 = specA q := by
    funext i j
    simp [regularizedA, specA, Ablock, colMajor]
  have hr : ∀ s : Vec3, rhsRevised q s 0 = fun i => -(specB q i) := by
    intro s
    funext i
    simp [rhsRevised, specB, bvec, colMajor]
    exact congrArg q (Fin.ext rfl)
  constructor
  · simpa only [hA, hr] using hsolver
  · simp only [eigen_optimal_vertex_revised]
    rw [hr r, hr r']

/-- Witness for C7 at the all-zero quadric, two different reference
vertices, and the zero solver. -/
theorem C7_witness :
    IsMinNormLS (specA qZero) (fun i => -(specB qZero i))
      (zeroSolver (regularizedA qZero 0) (rhsRevised qZero v567 0))
    ∧ eigen_optimal_vertex_revised zeroSolver (some qZero) (some v567) 0 (some zero4)
        = eigen_optimal_vertex_revised zeroSolver (some qZero) (some v890) 0 (some zero4) :=
  C7_zero_lambda zeroSolver qZero v567 v890 zero4 zero4 (zero_system_minNorm v567)

/-- C8: both functions are deterministic pure functions of their inputs:
identical argument tuples give identical return values and identical output
buffers. -/
theorem C8_determinism (svdSolve : Mat3 → Vec3 → Vec3)
    (Q Q2 : Option (Fin 16 → ℚ)) (v0 v02 : Option Vec3) (lam lam2 : ℚ)
    (buf buf2 : Option Vec4)
    (hQ : Q = Q2) (hv : v0 = v02) (hl : lam = lam2) (hb : buf = buf2) :
    eigen_optimal_vertex Q v0 lam buf = eigen_optimal_vertex Q2 v02 lam2 buf2
    ∧ eigen_optimal_vertex_revised svdSolve Q v0 lam buf
        = eigen_optimal_vertex_revised svdSolve Q2 v02 lam2 buf2 := by
  subst hQ; subst hv; subst hl; subst hb
  exact ⟨rfl, rfl⟩

/-- Witness for C8 at concrete identical inputs. -/
theorem C8_witness :
    eigen_optimal_vertex (some qZero) (some v567) 0 (some zero4)
      = eigen_optimal_vertex (some qZero) (some v567) 0 (some zero4)
    ∧ eigen_optimal_vertex_revised zeroSolver (some qZero) (some v567) 0 (some zero4)
        = eigen_optimal_vertex_revised zeroSolver (some qZero) (some v567) 0 (some zero4) :=
  C8_determinism zeroSolver (some qZero) (some qZero) (some v567) (some v567) 0 0
    (some zero4) (some zero4) rfl rfl rfl rfl

/-! ### More concrete inputs and evaluation lemmas -/

/-- Flat column-major identity quadric. -/
def qId : Fin 16 → ℚ :=
  fun k => if (k : ℕ) = 0 ∨ (k : ℕ) = 5 ∨ (k : ℕ) = 10 ∨ (k : ℕ) = 15 then 1 else 0

/-- The 4×4 identity matrix. -/
def id4 : Mat4 := fun i j => if i = j then 1 else 0

/-- A flat buffer that is zero except in row 3 (flat element 3). -/
def qRow3 : Fin 16 → ℚ := fun k => if (k : ℕ) = 3 then 99 else 0

lemma specModM_qId : specModM qId 0 = id4 := by
  funext i j
  fin_cases i <;> fin_cases j <;> simp [specModM, colMajor, qId, id4]

lemma modQmat_qId : modQmat qId 0 = id4 := by
  funext i j
  fin_cases i <;> fin_cases j <;> simp [modQmat, regQ, colMajor, qId, id4]

lemma det4_id4 : det4 id4 = 1 := by
  simp [det4, id4]

lemma solve4_id4 : solve4 id4 ![0, 0, 0, 1] = ![0, 0, 0, 1] := by
  funext i
  fin_cases i <;> simp [solve4, det4, updCol, id4]

lemma rhsOV_v567 : rhsOV v567 0 = ![0, 0, 0, 1] := by
  funext i
  fin_cases i <;> simp [rhsOV, v567]

/-- C2: `eigen_optimal_vertex` builds exactly the system matrix described by
the claim (copy of `Q`, `lambda` added at (0,0), (1,1), (2,2) only, row 3
replaced by [0,0,0,1]) and the right-hand side
`[lambda*v0[0], lambda*v0[1], lambda*v0[2], 1]`, and on an invertible system
the vector it computes genuinely solves `M v = rhs`. -/
theorem C2_system_construction (q : Fin 16 → ℚ) (r : Vec3) (lam : ℚ)
    (hdet : det4 (specModM q lam) ≠ 0) :
    modQmat q lam = specModM q lam
    ∧ rhsOV r lam = specRhs4 r lam
    ∧ mulVec4 (specModM q lam) (solve4 (modQmat q lam) (rhsOV r lam)) = specRhs4 r lam := by
  have hM : modQmat q lam = specModM q lam := by
    funext i j
    fin_cases i <;> fin_cases j <;> simp [modQmat, specModM, regQ, colMajor]
  refine ⟨hM, rfl, ?_⟩
  rw [hM]
  exact cramer_solve4 _ _ hdet

/-- Witness for C2 at the identity quadric with `lambda = 0`. -/
theorem C2_witness :
    modQmat qId 0 = specModM qId 0
    ∧ rhsOV v567 0 = specRhs4 v567 0
    ∧ mulVec4 (specModM qId 0) (solve4 (modQmat qId 0) (rhsOV v567 0)) = specRhs4 v567 0 :=
  C2_system_construction qId v567 0 (by rw [specModM_qId, det4_id4]; norm_num)

/-- C3: when the constructed system is not invertible, `eigen_optimal_vertex`
writes `v0` extended with 1 into `v_out` and returns false. -/
theorem C3_singular_fallback (q : Fin 16 → ℚ) (r : Vec3) (lam : ℚ) (buf : Vec4)
    (hdet : det4 (modQmat q lam) = 0) :
    eigen_optimal_vertex (some q) (some r) lam (some buf)
      = (false, some ![r 0, r 1, r 2, 1]) := by
  simp only [eigen_optimal_vertex]
  rw [if_pos hdet]

/-- Witness for C3 at the all-zero quadric, whose constrained system is
singular. -/
theorem C3_witness :
    eigen_optimal_vertex (some qZero) (some v567) 0 (some zero4)
      = (false, some ![5, 6, 7, 1]) := by
  have hdet : det4 (modQmat qZero 0) = 0 := by
    simp [det4, modQmat, regQ, colMajor, qZero]
  have h := C3_singular_fallback qZero v567 0 zero4 hdet
  have hv : (![v567 0, v567 1, v567 2, 1] : Vec4) = ![5, 6, 7, 1] := by
    funext i
    fin_cases i <;> simp [v567]
  rw [h, hv]

/-- C4: on an invertible system, `eigen_optimal_vertex` normalizes the
solution by its homogeneous coordinate `w` and returns true when
`|w| > 1e-10`, and falls back to `v0` (returning false) when `|w| ≤ 1e-10`. -/
theorem C4_invertible_branch (q : Fin 16 → ℚ) (r : Vec3) (lam : ℚ) (buf : Vec4)
    (hdet : det4 (modQmat q lam) ≠ 0) :
    eigen_optimal_vertex (some q) (some r) lam (some buf)
      = if wTol < |solve4 (modQmat q lam) (rhsOV r lam) 3| then
          (true, some (fun i => solve4 (modQmat q lam) (rhsOV r lam) i /
                                solve4 (modQmat q lam) (rhsOV r lam) 3))
        else (false, some ![r 0, r 1, r 2, 1]) := by
  simp only [eigen_optimal_vertex]
  rw [if_neg hdet]

/-- Witness for C4 at the identity quadric: the solve succeeds with `w = 1`
and the normalized solution is written. -/
theorem C4_witness :
    eigen_optimal_vertex (some qId) (some v567) 0 (some zero4)
      = (true, some ![0, 0, 0, 1]) := by
  have hdet : det4 (modQmat qId 0) ≠ 0 := by
    rw [modQmat_qId, det4_id4]; norm_num
  have h := C4_invertible_branch qId v567 0 zero4 hdet
  rw [h, modQmat_qId, rhsOV_v567, solve4_id4]
  rw [if_pos (by simp; norm_num [wTol])]
  have hfun : (fun i => (![(0:ℚ), 0, 0, 1] : Vec4) i / (![(0:ℚ), 0, 0, 1] : Vec4) 3)
      = (![(0:ℚ), 0, 0, 1] : Vec4) := by
    funext i
    fin_cases i <;> simp
  rw [hfun]

/-- C6: on every non-null call, whatever branch is taken, the written
homogeneous coordinate `v_out[3]` equals 1 (on the successful branch it is
`w / w`). -/
theorem C6_homogeneous_invariant (q : Fin 16 → ℚ) (r : Vec3) (lam : ℚ) (buf : Vec4) :
    Option.map (fun w => w 3) (eigen_optimal_vertex (some q) (some r) lam (some buf)).2
      = some 1 := by
  simp only [eigen_optimal_vertex]
  by_cases hdet : det4 (modQmat q lam) = 0
  · rw [if_pos hdet]
    simp
  · rw [if_neg hdet]
    by_cases hw : wTol < |solve4 (modQmat q lam) (rhsOV r lam) 3|
    · rw [if_pos hw]
      have hne : solve4 (modQmat q lam) (rhsOV r lam) 3 ≠ 0 := by
        intro h0
        rw [h0, abs_zero] at hw
        exact absurd hw (by norm_num [wTol])
      simp [div_self hne]
    · rw [if_neg hw]
      simp

/-- C9: the output of `eigen_optimal_vertex` does not depend on row 3 of the
column-major quadric (flat elements 3, 7, 11, 15), because that row of the
copied matrix is overwritten with the constraint row before solving. -/
theorem C9_row3_independent (q q' : Fin 16 → ℚ) (r : Vec3) (lam : ℚ) (buf : Vec4)
    (h : ∀ k : Fin 16, (k : ℕ) ≠ 3 → (k : ℕ) ≠ 7 → (k : ℕ) ≠ 11 → (k : ℕ) ≠ 15 →
      q k = q' k) :
    eigen_optimal_vertex (some q) (some r) lam (some buf)
      = eigen_optimal_vertex (some q') (some r) lam (some buf) := by
  have hM : modQmat q lam = modQmat q' lam := by
    funext i j
    simp only [modQmat, regQ, colMajor]
    by_cases hi : (i : ℕ) = 3
    · rw [if_pos hi, if_pos hi]
    · rw [if_neg hi, if_neg hi]
      have hij := i.isLt
      have hjj := j.isLt
      congr 1
      refine h ⟨(j : ℕ) * 4 + (i : ℕ), by omega⟩ ?_ ?_ ?_ ?_
      · show (j : ℕ) * 4 + (i : ℕ) ≠ 3; omega
      · show (j : ℕ) * 4 + (i : ℕ) ≠ 7; omega
      · show (j : ℕ) * 4 + (i : ℕ) ≠ 11; omega
      · show (j : ℕ) * 4 + (i : ℕ) ≠ 15; omega
  simp only [eigen_optimal_vertex, hM]

/-- Witness for C9: a buffer that differs from the zero buffer exactly at
flat element 3 produces the same call result. -/
theorem C9_witness :
    eigen_optimal_vertex (some qRow3) (some v567) 0 (some zero4)
      = eigen_optimal_vertex (some qZero) (some v567) 0 (some zero4) :=
  C9_row3_independent qRow3 qZero v567 0 zero4
    (fun _ h3 _ _ _ => if_neg h3)

/-- A diagonal matrix with determinant `1/10000`: invertible, but below the
robust-inverse threshold. -/
def robustExample : Mat4 := fun i j => if i = j then 1/10 else 0

/-- C10: `eigen_mat4d_robust_inverse` chooses between the plain inverse and
the pseudo-inverse purely by comparing `|det|` against `10^-2`; in
particular the invertible matrix `robustExample` (determinant `1/10000`)
is sent to the pseudo-inverse branch. -/
theorem C10_threshold_policy (pinv : Mat4 → Mat4) (M : Mat4) :
    eigen_mat4d_robust_inverse pinv M
      = (if detThreshold < |det4 M| then inverse4 M else pinv M)
    ∧ det4 robustExample ≠ 0
    ∧ ¬ detThreshold < |det4 robustExample|
    ∧ eigen_mat4d_robust_inverse pinv robustExample = pinv robustExample := by
  have hdet : det4 robustExample = 1/10000 := by
    simp [det4, robustExample]
    norm_num
  have habs : |det4 robustExample| = 1/10000 := by
    rw [hdet, abs_of_pos (by norm_num : (0:ℚ) < 1/10000)]
  have hlt : ¬ detThreshold < |det4 robustExample| := by
    rw [habs]
    norm_num [detThreshold]
  refine ⟨rfl, by rw [hdet]; norm_num, hlt, ?_⟩
  simp only [eigen_mat4d_robust_inverse]
  rw [if_neg hlt]
